import Mathlib

/-!
Shallow embedding of the fixed-framestep scheduler from
src/src/fixedframestep.rs and verification of its specification.

The Rust source stores frame counters as u32; here they are Nat with an
explicit reduction modulo 2^32 at the one arithmetic operation where a
wrap can occur (the accumulator increment). The Bevy World is modelled by
the only resource this module touches: the optional FixedFramesteps
registry. Child stages (sub-phases) are opaque World transformers.
-/

/-- Reduction modulo 2^32, the u32 wrap of the Rust source. -/
def u32Mod (n : Nat) : Nat := n % 4294967296

/-- Mirror of struct FixedFramestepInfo: step, accumulator, paused. -/
structure FixedFramestepInfo where
  step : Nat
  accumulator : Nat
  paused : Bool
  deriving DecidableEq

/-- Mirror of FixedFramestepInfo::framestep. -/
def FixedFramestepInfo.framestep (i : FixedFramestepInfo) : Nat := i.step

/-- Mirror of FixedFramestepInfo::remaining. -/
def FixedFramestepInfo.remaining (i : FixedFramestepInfo) : Nat := i.accumulator

/-- Mirror of FixedFramestepInfo::overstep, which computes
self.accumulator - self.step on u32. Unsigned subtraction underflow is a
Rust arithmetic error (panic), modelled as none. -/
def FixedFramestepInfo.overstep (i : FixedFramestepInfo) : Option Nat :=
  if i.accumulator < i.step then none else some (i.accumulator - i.step)

/-- Mirror of FixedFramestepInfo::pause. -/
def FixedFramestepInfo.pause (i : FixedFramestepInfo) : FixedFramestepInfo :=
  { i with paused := true }

/-- Mirror of FixedFramestepInfo::unpause. -/
def FixedFramestepInfo.unpause (i : FixedFramestepInfo) : FixedFramestepInfo :=
  { i with paused := false }

/-- Mirror of FixedFramestepInfo::toggle_pause. -/
def FixedFramestepInfo.toggle_pause (i : FixedFramestepInfo) : FixedFramestepInfo :=
  { i with paused := !i.paused }

/-- Mirror of struct FixedFramesteps. The HashMap from framestep name to
info is an association list with unique keys. -/
structure FixedFramesteps where
  info : List (String × FixedFramestepInfo)
  current : Option String
  deriving DecidableEq

/-- Association-list lookup, the model of HashMap::get. -/
def lookupInfo : List (String × FixedFramestepInfo) → String → Option FixedFramestepInfo
  | [], _ => none
  | p :: rest, k => if p.1 = k then some p.2 else lookupInfo rest k

/-- In-place overwrite of the entry at a key, the model of writing through
HashMap::get_mut. -/
def updateInfo : List (String × FixedFramestepInfo) → String → FixedFramestepInfo →
    List (String × FixedFramestepInfo)
  | [], _, _ => []
  | p :: rest, k, v =>
      if p.1 = k then (p.1, v) :: updateInfo rest k v else p :: updateInfo rest k v

/-- Mirror of FixedFramesteps::get. -/
def FixedFramesteps.get (fs : FixedFramesteps) (label : String) : Option FixedFramestepInfo :=
  lookupInfo fs.info label

/-- Mirror of FixedFramesteps::get_current:
self.current.as_ref().and_then(|label| self.info.get(label)). -/
def FixedFramesteps.get_current (fs : FixedFramesteps) : Option FixedFramestepInfo :=
  match fs.current with
  | some label => fs.get label
  | none => none

/-- Mirror of FixedFramesteps::get_single: none unless the map holds
exactly one entry, otherwise the first (sole) value. -/
def FixedFramesteps.get_single (fs : FixedFramesteps) : Option FixedFramestepInfo :=
  if fs.info.length ≠ 1 then none
  else (fs.info.head?).map Prod.snd

/-- Mirror of FixedFramesteps::get_single_mut, whose body is identical to
get_single up to mutability of the returned reference. -/
def FixedFramesteps.get_single_mut (fs : FixedFramesteps) : Option FixedFramestepInfo :=
  if fs.info.length ≠ 1 then none
  else (fs.info.head?).map Prod.snd

/-- The Bevy World restricted to the one resource this module reads and
writes: the optional FixedFramesteps registry. -/
structure World where
  framesteps : Option FixedFramesteps
  deriving DecidableEq

/-- world.get_resource followed by framesteps.info.get, the composite
lookup the runner performs. -/
def World.getInfo (w : World) (label : String) : Option FixedFramestepInfo :=
  match w.framesteps with
  | some fs => fs.get label
  | none => none

/-- FixedFramesteps::get_current read through the World resource. -/
def World.get_current (w : World) : Option FixedFramestepInfo :=
  match w.framesteps with
  | some fs => fs.get_current
  | none => none

/-- Mirror of struct FixedFramestepStage. Child stages are opaque World
transformers. -/
structure FixedFramestepStage where
  step : Nat
  accumulator : Nat
  paused : Bool
  label : String
  stages : List (World → World)

/-- Mirror of FixedFramestepStage::new. -/
def FixedFramestepStage.new (framestep : Nat) (label : String) : FixedFramestepStage :=
  { step := framestep, accumulator := 0, paused := false, label := label, stages := [] }

/-- Mirror of FixedFramestepStage::store_fixedframestepinfo: ensure the
FixedFramesteps resource exists, set current to this label, and write the
local (step, accumulator, paused) under this label, inserting if absent. -/
def FixedFramestepStage.store_fixedframestepinfo (s : FixedFramestepStage) (w : World) : World :=
  let newInfo : FixedFramestepInfo := ⟨s.step, s.accumulator, s.paused⟩
  match w.framesteps with
  | some fs =>
      if (lookupInfo fs.info s.label).isSome then
        ⟨some ⟨updateInfo fs.info s.label newInfo, some s.label⟩⟩
      else
        ⟨some ⟨fs.info ++ [(s.label, newInfo)], some s.label⟩⟩
  | none =>
      ⟨some ⟨[(s.label, newInfo)], some s.label⟩⟩

/-- The synchronization at the top of Stage::run (source lines 250-256):
if the registry holds an entry for this label, overwrite the local step
and paused from it; the accumulator is not synced. -/
def FixedFramestepStage.pull (s : FixedFramestepStage) (w : World) : FixedFramestepStage :=
  match w.getInfo s.label with
  | some info => { s with step := info.step, paused := info.paused }
  | none => s

/-- The child-stage loop of Stage::run (source lines 281-295): run each
stage on the world, and after each one re-read the registry entry for this
label and copy step, accumulator and paused back into the locals. -/
def runStagesLoop (label : String) :
    FixedFramestepInfo → List (World → World) → World → FixedFramestepInfo × World
  | st, [], w => (st, w)
  | st, stage :: rest, w =>
      let w := stage w
      let st := match w.getInfo label with
                | some info => info
                | none => st
      runStagesLoop label st rest w

/-- Source lines 299-301: if the FixedFramesteps resource exists, set its
current field to None. -/
def clearCurrent (w : World) : World :=
  match w.framesteps with
  | some fs => ⟨some ⟨fs.info, none⟩⟩
  | none => w

/-- Mirror of <FixedFramestepStage as Stage>::run (source lines 249-317).
Returns the updated stage, the updated world, and the value of the local
n_steps counter (the number of times the child-stage sequence ran), made
explicit because the specification counts fires with it. -/
def FixedFramestepStage.run (s : FixedFramestepStage) (w : World) :
    FixedFramestepStage × World × Nat :=
  let s := s.pull w
  if s.paused then
    (s, w, 0)
  else
    let s := { s with accumulator := u32Mod (s.accumulator + 1) }
    if s.accumulator = s.step then
      let s := { s with accumulator := s.accumulator - s.step }
      let w := s.store_fixedframestepinfo w
      let r := runStagesLoop s.label ⟨s.step, s.accumulator, s.paused⟩ s.stages w
      let s := { s with step := r.1.step, accumulator := r.1.accumulator,
                        paused := r.1.paused }
      let w := clearCurrent r.2
      (s, w, 1)
    else
      let w := clearCurrent w
      let w := s.store_fixedframestepinfo w
      (s, w, 0)

/-- N consecutive invocations of run, threading stage and world, summing
the fire counts. -/
def runN : FixedFramestepStage → World → Nat → FixedFramestepStage × World × Nat
  | s, w, 0 => (s, w, 0)
  | s, w, n + 1 =>
      let r := s.run w
      let r2 := runN r.1 r.2.1 n
      (r2.1, r2.2.1, r.2.2 + r2.2.2)

/-! ### Helper lemmas about the registry operations -/

theorem lookupInfo_updateInfo_self (l : List (String × FixedFramestepInfo)) (k : String)
    (v : FixedFramestepInfo) (h : (lookupInfo l k).isSome) :
    lookupInfo (updateInfo l k v) k = some v := by
  induction l with
  | nil => simp [lookupInfo] at h
  | cons p rest ih =>
      by_cases hk : p.1 = k
      · simp [lookupInfo, updateInfo, hk]
      · simp [lookupInfo, updateInfo, hk] at h ⊢
        exact ih h

theorem lookupInfo_append_self (l : List (String × FixedFramestepInfo)) (k : String)
    (v : FixedFramestepInfo) (h : lookupInfo l k = none) :
    lookupInfo (l ++ [(k, v)]) k = some v := by
  induction l with
  | nil => simp [lookupInfo]
  | cons p rest ih =>
      by_cases hk : p.1 = k
      · simp [lookupInfo, hk] at h
      · simp [lookupInfo, hk] at h ⊢
        exact ih h

theorem store_getInfo (s : FixedFramestepStage) (w : World) :
    (s.store_fixedframestepinfo w).getInfo s.label =
      some ⟨s.step, s.accumulator, s.paused⟩ := by
  unfold FixedFramestepStage.store_fixedframestepinfo
  cases hw : w.framesteps with
  | none => simp [World.getInfo, FixedFramesteps.get, lookupInfo]
  | some fs =>
      by_cases hl : (lookupInfo fs.info s.label).isSome
      · simp [hl, World.getInfo, FixedFramesteps.get]
        exact lookupInfo_updateInfo_self fs.info s.label _ hl
      · simp [hl, World.getInfo, FixedFramesteps.get]
        exact lookupInfo_append_self fs.info s.label _
          (Option.not_isSome_iff_eq_none.mp hl)

theorem clearCurrent_getInfo (w : World) (label : String) :
    (clearCurrent w).getInfo label = w.getInfo label := by
  unfold clearCurrent
  cases hw : w.framesteps with
  | none => rfl
  | some fs => simp [World.getInfo, FixedFramesteps.get, hw]

theorem pull_of_none (s : FixedFramestepStage) (w : World)
    (h : w.getInfo s.label = none) : s.pull w = s := by
  unfold FixedFramestepStage.pull
  simp [h]

theorem pull_of_some (s : FixedFramestepStage) (w : World) (info : FixedFramestepInfo)
    (h : w.getInfo s.label = some info) :
    s.pull w = { s with step := info.step, paused := info.paused } := by
  unfold FixedFramestepStage.pull
  simp [h]

theorem runStagesLoop_world_foldl (label : String) (st : FixedFramestepInfo)
    (phases : List (World → World)) (w : World) :
    (runStagesLoop label st phases w).2 = phases.foldl (fun w f => f w) w := by
  induction phases generalizing st w with
  | nil => rfl
  | cons f rest ih => simp [runStagesLoop, List.foldl, ih]

theorem runStagesLoop_id (label : String) (st : FixedFramestepInfo)
    (phases : List (World → World)) (w : World)
    (hph : ∀ f ∈ phases, f = fun x => x) (hw : w.getInfo label = some st) :
    runStagesLoop label st phases w = (st, w) := by
  induction phases with
  | nil => rfl
  | cons f rest ih =>
      have hf : f = fun x => x := hph f (by simp)
      have hrest : ∀ g ∈ rest, g = fun x => x := fun g hg => hph g (by simp [hg])
      simp [runStagesLoop, hf, hw]
      exact ih hrest

theorem runStagesLoop_sync (label : String) (st : FixedFramestepInfo)
    (phases : List (World → World)) (w : World)
    (hph : ∀ f ∈ phases, ∀ v : World,
      (v.getInfo label).isSome → ((f v).getInfo label).isSome)
    (hw : w.getInfo label = some st) :
    (runStagesLoop label st phases w).2.getInfo label =
      some (runStagesLoop label st phases w).1 := by
  induction phases generalizing st w with
  | nil => simpa [runStagesLoop] using hw
  | cons f rest ih =>
      have hf := hph f (by simp) w (by simp [hw])
      obtain ⟨info, hinfo⟩ := Option.isSome_iff_exists.mp hf
      have hrest : ∀ g ∈ rest, ∀ v : World,
          (v.getInfo label).isSome → ((g v).getInfo label).isSome :=
        fun g hg => hph g (by simp [hg])
      simp [runStagesLoop, hinfo]
      exact ih info (f w) hrest hinfo

theorem run_step_fire (S acc : Nat) (label : String) (phases : List (World → World))
    (w : World) (hSlt : S < 4294967296) (hacc : acc < S) (hfire : acc + 1 = S)
    (hph : ∀ f ∈ phases, f = fun x => x)
    (hw : w.getInfo label = none ∨ w.getInfo label = some ⟨S, acc, false⟩) :
    FixedFramestepStage.run ⟨S, acc, false, label, phases⟩ w =
      (⟨S, 0, false, label, phases⟩,
       clearCurrent
         (FixedFramestepStage.store_fixedframestepinfo ⟨S, 0, false, label, phases⟩ w),
       1) := by
  subst hfire
  have hmod : u32Mod (acc + 1) = acc + 1 :=
    Nat.mod_eq_of_lt hSlt
  have hpull : FixedFramestepStage.pull ⟨acc + 1, acc, false, label, phases⟩ w =
      ⟨acc + 1, acc, false, label, phases⟩ := by
    rcases hw with h | h
    · exact pull_of_none _ _ h
    · rw [pull_of_some _ _ _ h]
  have hst := store_getInfo ⟨acc + 1, 0, false, label, phases⟩ w
  have hloop := runStagesLoop_id label ⟨acc + 1, 0, false⟩ phases
    (FixedFramestepStage.store_fixedframestepinfo ⟨acc + 1, 0, false, label, phases⟩ w)
    hph hst
  simp only [FixedFramestepStage.run, hpull, hmod]
  simp [hloop]

theorem run_step_nofire (S acc : Nat) (label : String) (phases : List (World → World))
    (w : World) (hSlt : S < 4294967296) (hacc : acc < S) (hfire : acc + 1 ≠ S)
    (hw : w.getInfo label = none ∨ w.getInfo label = some ⟨S, acc, false⟩) :
    FixedFramestepStage.run ⟨S, acc, false, label, phases⟩ w =
      (⟨S, acc + 1, false, label, phases⟩,
       FixedFramestepStage.store_fixedframestepinfo ⟨S, acc + 1, false, label, phases⟩
         (clearCurrent w),
       0) := by
  have hmod : u32Mod (acc + 1) = acc + 1 :=
    Nat.mod_eq_of_lt (lt_of_le_of_lt (Nat.succ_le_of_lt hacc) hSlt)
  have hpull : FixedFramestepStage.pull ⟨S, acc, false, label, phases⟩ w =
      ⟨S, acc, false, label, phases⟩ := by
    rcases hw with h | h
    · exact pull_of_none _ _ h
    · rw [pull_of_some _ _ _ h]
  simp only [FixedFramestepStage.run, hpull, hmod]
  simp [hfire]

theorem runN_inv (n : Nat) :
    ∀ (S acc : Nat) (label : String) (phases : List (World → World)) (w : World),
    0 < S → S < 4294967296 → acc < S →
    (∀ f ∈ phases, f = fun x => x) →
    (w.getInfo label = none ∨ w.getInfo label = some ⟨S, acc, false⟩) →
    (runN ⟨S, acc, false, label, phases⟩ w n).1 =
        ⟨S, (acc + n) % S, false, label, phases⟩ ∧
    (runN ⟨S, acc, false, label, phases⟩ w n).2.2 = (acc + n) / S := by
  induction n with
  | zero =>
      intro S acc label phases w hS hSlt hacc hph hw
      constructor
      · simp [runN, Nat.mod_eq_of_lt hacc]
      · simp [runN, Nat.div_eq_of_lt hacc]
  | succ n ih =>
      intro S acc label phases w hS hSlt hacc hph hw
      by_cases hfire : acc + 1 = S
      · have hrun := run_step_fire S acc label phases w hSlt hacc hfire hph hw
        have hw1 : (clearCurrent
            (FixedFramestepStage.store_fixedframestepinfo
              ⟨S, 0, false, label, phases⟩ w)).getInfo label = some ⟨S, 0, false⟩ := by
          rw [clearCurrent_getInfo]
          exact store_getInfo ⟨S, 0, false, label, phases⟩ w
        have ih1 := ih S 0 label phases
          (clearCurrent
            (FixedFramestepStage.store_fixedframestepinfo
              ⟨S, 0, false, label, phases⟩ w))
          hS hSlt hS hph (Or.inr hw1)
        have harith : acc + (n + 1) = S + n := by omega
        constructor
        · simp only [runN, hrun]
          rw [ih1.1]
          rw [harith, Nat.add_mod_left]
          simp
        · simp only [runN, hrun]
          rw [ih1.2]
          rw [harith, Nat.add_div_left n hS]
          simp [Nat.add_comm]
      · have hlt : acc + 1 < S := Nat.lt_of_le_of_ne (Nat.succ_le_of_lt hacc) hfire
        have hrun := run_step_nofire S acc label phases w hSlt hacc hfire hw
        have hw1 : (FixedFramestepStage.store_fixedframestepinfo
            ⟨S, acc + 1, false, label, phases⟩ (clearCurrent w)).getInfo label =
            some ⟨S, acc + 1, false⟩ :=
          store_getInfo ⟨S, acc + 1, false, label, phases⟩ (clearCurrent w)
        have ih1 := ih S (acc + 1) label phases
          (FixedFramestepStage.store_fixedframestepinfo
            ⟨S, acc + 1, false, label, phases⟩ (clearCurrent w))
          hS hSlt hlt hph (Or.inr hw1)
        have harith : acc + (n + 1) = (acc + 1) + n := by omega
        constructor
        · simp only [runN, hrun]
          rw [ih1.1, harith]
        · simp only [runN, hrun]
          rw [ih1.2, harith]
          simp

theorem pull_accumulator (s : FixedFramestepStage) (w : World) :
    (s.pull w).accumulator = s.accumulator := by
  unfold FixedFramestepStage.pull
  cases w.getInfo s.label <;> rfl

theorem pull_label (s : FixedFramestepStage) (w : World) :
    (s.pull w).label = s.label := by
  unfold FixedFramestepStage.pull
  cases w.getInfo s.label <;> rfl

theorem pull_stages (s : FixedFramestepStage) (w : World) :
    (s.pull w).stages = s.stages := by
  unfold FixedFramestepStage.pull
  cases w.getInfo s.label <;> rfl

theorem run_eq_paused (s : FixedFramestepStage) (w : World)
    (hp : (s.pull w).paused = true) :
    s.run w = (s.pull w, w, 0) := by
  unfold FixedFramestepStage.run
  simp [hp]

theorem run_eq_fire (s : FixedFramestepStage) (w : World)
    (hp : (s.pull w).paused = false)
    (hf : u32Mod ((s.pull w).accumulator + 1) = (s.pull w).step) :
    s.run w =
      (let t : FixedFramestepStage :=
        { s.pull w with
          accumulator := u32Mod ((s.pull w).accumulator + 1) - (s.pull w).step }
       let w1 := t.store_fixedframestepinfo w
       let r := runStagesLoop t.label ⟨t.step, t.accumulator, t.paused⟩ t.stages w1
       ({ t with step := r.1.step, accumulator := r.1.accumulator, paused := r.1.paused },
        clearCurrent r.2, 1)) := by
  unfold FixedFramestepStage.run
  simp [hp, hf]

theorem run_eq_nofire (s : FixedFramestepStage) (w : World)
    (hp : (s.pull w).paused = false)
    (hf : u32Mod ((s.pull w).accumulator + 1) ≠ (s.pull w).step) :
    s.run w =
      (let t : FixedFramestepStage :=
        { s.pull w with accumulator := u32Mod ((s.pull w).accumulator + 1) }
       (t, t.store_fixedframestepinfo (clearCurrent w), 0)) := by
  unfold FixedFramestepStage.run
  simp [hp, hf]

/-! ### Claim theorems -/

/-- Claim C1: a runner with step S (0 < S, S a u32 value) that starts with
accumulator 0, is never paused, and whose registry entry is never
externally mutated (its sub-phases are inert identity transformers and no
other code writes the entry) fires exactly N / S times over N invocations
of run, and its final accumulator is N % S. -/
theorem runN_fires_floor_div_and_accumulator_mod
    (S N : Nat) (label : String) (phases : List (World → World)) (w : World)
    (hS : 0 < S) (hSlt : S < 4294967296)
    (hph : ∀ f ∈ phases, f = fun x => x)
    (hw : w.getInfo label = none) :
    (runN ⟨S, 0, false, label, phases⟩ w N).2.2 = N / S ∧
    (runN ⟨S, 0, false, label, phases⟩ w N).1.accumulator = N % S := by
  have h := runN_inv N S 0 label phases w hS hSlt hS hph (Or.inl hw)
  refine ⟨?_, ?_⟩
  · simpa using h.2
  · rw [h.1]
    simp

/-- Witness for C1 at S = 3, N = 7: two fires, final accumulator 1. -/
theorem runN_fires_floor_div_and_accumulator_mod_witness :
    (runN ⟨3, 0, false, "t", []⟩ ⟨none⟩ 7).2.2 = 2 ∧
    (runN ⟨3, 0, false, "t", []⟩ ⟨none⟩ 7).1.accumulator = 1 := by
  have h := runN_fires_floor_div_and_accumulator_mod 3 7 "t" [] ⟨none⟩
    (by decide) (by decide) (by intro f hf; cases hf) rfl
  simpa using h

/-- Claim C2: every invocation of run executes the sub-phase sequence at
most once, and it executes it exactly once precisely when the runner is
unpaused after the pull and the accumulator after the increment equals the
step with exact equality. -/
theorem run_at_most_one_fire_iff_exact_threshold (s : FixedFramestepStage) (w : World) :
    (s.run w).2.2 ≤ 1 ∧
    ((s.run w).2.2 = 1 ↔
      (s.pull w).paused = false ∧
      u32Mod ((s.pull w).accumulator + 1) = (s.pull w).step) := by
  unfold FixedFramestepStage.run
  cases hp : (s.pull w).paused
  · by_cases hf : u32Mod ((s.pull w).accumulator + 1) = (s.pull w).step
    · simp [hp, hf]
    · simp [hp, hf]
  · simp [hp]

/-- Witness for C2: an externally overstepped accumulator (set to
step + 5 = 8 before the tick) yields zero fires on the next invocation,
and an exact-threshold accumulator yields exactly one. -/
theorem run_at_most_one_fire_iff_exact_threshold_witness :
    ((⟨3, 8, false, "t", []⟩ : FixedFramestepStage).run ⟨none⟩).2.2 = 0 ∧
    ((⟨3, 2, false, "t", []⟩ : FixedFramestepStage).run ⟨none⟩).2.2 = 1 := by
  refine ⟨?_, ?_⟩
  · have h := (run_at_most_one_fire_iff_exact_threshold ⟨3, 8, false, "t", []⟩ ⟨none⟩).2
    have h9 : ((⟨3, 8, false, "t", []⟩ : FixedFramestepStage).run ⟨none⟩).2.2 ≠ 1 := by
      intro h1
      exact absurd (h.mp h1).2 (by decide)
    have hle := (run_at_most_one_fire_iff_exact_threshold ⟨3, 8, false, "t", []⟩ ⟨none⟩).1
    omega
  · exact (run_at_most_one_fire_iff_exact_threshold ⟨3, 2, false, "t", []⟩ ⟨none⟩).2.mpr
      ⟨rfl, rfl⟩

/-- Claim C3 (divergence exhibit): after a single non-firing invocation of
run on a fresh world, get_current returns a present value, because the
no-fire publish executes after the current marker was cleared and sets the
marker back to this label. The specification requires get_current to be
absent at all times outside the firing window, including between two
non-firing invocations. -/
theorem get_current_some_after_non_firing_run :
    ((FixedFramestepStage.run ⟨3, 0, false, "t", []⟩ ⟨none⟩).2.1).get_current =
      some ⟨3, 1, false⟩ := by
  rfl

/-- Claim C4 counterexample: a paused invocation returns before any
publish, so with a fresh world the registry entry for the runner name is
still absent after run, refuting the claim that after every invocation the
entry exists and matches the locals. -/
theorem registry_entry_absent_after_paused_run :
    ((FixedFramestepStage.run ⟨3, 0, true, "t", []⟩ ⟨none⟩).2.1).getInfo "t" = none := by
  rfl

/-- Claim C4 (amended): after every invocation of run in which the runner
is not paused after the pull step, provided every sub-phase preserves the
presence of the registry entry for the runner name, the entry exists at
the end of the invocation and holds exactly the final local
(step, accumulator, paused) triple of the runner. -/
theorem registry_matches_locals_after_unpaused_run
    (s : FixedFramestepStage) (w : World)
    (hp : (s.pull w).paused = false)
    (hph : ∀ f ∈ s.stages, ∀ v : World,
      (v.getInfo s.label).isSome → ((f v).getInfo s.label).isSome) :
    ((s.run w).2.1).getInfo s.label =
      some ⟨(s.run w).1.step, (s.run w).1.accumulator, (s.run w).1.paused⟩ := by
  by_cases hf : u32Mod ((s.pull w).accumulator + 1) = (s.pull w).step
  · rw [run_eq_fire s w hp hf]
    simp only []
    set t : FixedFramestepStage :=
      { s.pull w with
        accumulator := u32Mod ((s.pull w).accumulator + 1) - (s.pull w).step } with ht
    have htlabel : t.label = s.label := by rw [ht]; exact pull_label s w
    have htstages : t.stages = s.stages := by rw [ht]; exact pull_stages s w
    have hst : (t.store_fixedframestepinfo w).getInfo t.label =
        some ⟨t.step, t.accumulator, t.paused⟩ := store_getInfo t w
    have hsync := runStagesLoop_sync t.label ⟨t.step, t.accumulator, t.paused⟩
      t.stages (t.store_fixedframestepinfo w)
      (by rw [htlabel, htstages]; exact hph) hst
    rw [clearCurrent_getInfo, ← htlabel]
    exact hsync
  · rw [run_eq_nofire s w hp hf]
    simp only []
    set t : FixedFramestepStage :=
      { s.pull w with accumulator := u32Mod ((s.pull w).accumulator + 1) } with ht
    have htlabel : t.label = s.label := by rw [ht]; exact pull_label s w
    rw [← htlabel]
    exact store_getInfo t (clearCurrent w)

/-- Witness for C4: a firing invocation with one inert sub-phase on a
fresh world ends with the registry entry equal to the final locals. -/
theorem registry_matches_locals_after_unpaused_run_witness :
    ((FixedFramestepStage.run ⟨3, 2, false, "t", [fun v => v]⟩ ⟨none⟩).2.1).getInfo "t" =
      some ⟨3, 0, false⟩ := by
  have h := registry_matches_locals_after_unpaused_run ⟨3, 2, false, "t", [fun v => v]⟩
    ⟨none⟩ rfl
    (by
      intro f hf v hv
      simp at hf
      rw [hf]
      exact hv)
  rw [h]
  rfl

/-- Claim C5: during a fire, after a sub-phase runs the runner copies
step, accumulator and paused back from the registry entry for its name, so
whatever that sub-phase wrote into the shared state is the local state
used for every remaining sub-phase of the same fire and for the runner
bookkeeping afterwards. -/
theorem substage_mutation_visible_to_rest_of_fire
    (label : String) (st info : FixedFramestepInfo) (f : World → World)
    (rest : List (World → World)) (w : World)
    (h : (f w).getInfo label = some info) :
    runStagesLoop label st (f :: rest) w = runStagesLoop label info rest (f w) := by
  simp [runStagesLoop, h]

/-- Witness for C5: a sub-phase that sets the entry to step 5 and
accumulator 0 mid-fire makes the rest of the fire run with locals
(5, 0, false), not the original (3, 0, false). -/
theorem substage_mutation_visible_to_rest_of_fire_witness :
    runStagesLoop "t" ⟨3, 0, false⟩
      [fun _ => ⟨some ⟨[("t", ⟨5, 0, false⟩)], some "t"⟩⟩, fun v => v] ⟨none⟩ =
      (⟨5, 0, false⟩, ⟨some ⟨[("t", ⟨5, 0, false⟩)], some "t"⟩⟩) := by
  have h := substage_mutation_visible_to_rest_of_fire "t" ⟨3, 0, false⟩ ⟨5, 0, false⟩
    (fun _ => ⟨some ⟨[("t", ⟨5, 0, false⟩)], some "t"⟩⟩) [fun v => v] ⟨none⟩ rfl
  rw [h]
  rfl

/-- Claim C6: when the registry holds an entry for the runner name, the
pull at the start of run overwrites only the local step and paused from
it; the local accumulator, the label and the sub-stage list are untouched,
whatever accumulator value the registry stores. -/
theorem pull_overwrites_only_step_and_paused
    (s : FixedFramestepStage) (w : World) (info : FixedFramestepInfo)
    (h : w.getInfo s.label = some info) :
    (s.pull w).step = info.step ∧ (s.pull w).paused = info.paused ∧
    (s.pull w).accumulator = s.accumulator ∧
    (s.pull w).label = s.label ∧ (s.pull w).stages = s.stages := by
  rw [pull_of_some s w info h]
  exact ⟨rfl, rfl, rfl, rfl, rfl⟩

/-- Witness for C6: with a registry entry (7, 99, true) the pull sets
step 7 and paused true but leaves the local accumulator at 2. -/
theorem pull_overwrites_only_step_and_paused_witness :
    ((⟨3, 2, false, "t", []⟩ : FixedFramestepStage).pull
        ⟨some ⟨[("t", ⟨7, 99, true⟩)], none⟩⟩).step = 7 ∧
    ((⟨3, 2, false, "t", []⟩ : FixedFramestepStage).pull
        ⟨some ⟨[("t", ⟨7, 99, true⟩)], none⟩⟩).paused = true ∧
    ((⟨3, 2, false, "t", []⟩ : FixedFramestepStage).pull
        ⟨some ⟨[("t", ⟨7, 99, true⟩)], none⟩⟩).accumulator = 2 := by
  have h := pull_overwrites_only_step_and_paused ⟨3, 2, false, "t", []⟩
    ⟨some ⟨[("t", ⟨7, 99, true⟩)], none⟩⟩ ⟨7, 99, true⟩ rfl
  exact ⟨h.1, h.2.1, h.2.2.1⟩

/-- Claim C7: if the runner is paused after the pull, run returns at once
with the world untouched, no accumulation, no publish and no sub-phase
execution; and the sub-phase loop applies every sub-phase to the world in
order no matter what pause state is written into the shared state
mid-fire, so a pause issued during sub-phase k never aborts the remaining
sub-phases of the same fire and takes effect only from the next
invocation. -/
theorem paused_returns_immediately_and_substages_never_aborted :
    (∀ (s : FixedFramestepStage) (w : World), (s.pull w).paused = true →
      s.run w = (s.pull w, w, 0)) ∧
    (∀ (label : String) (st : FixedFramestepInfo) (phases : List (World → World))
      (w : World),
      (runStagesLoop label st phases w).2 = phases.foldl (fun v f => f v) w) := by
  exact ⟨run_eq_paused, fun label st phases w => runStagesLoop_world_foldl label st phases w⟩

/-- Witness for C7: a paused runner leaves the world untouched with zero
fires, and a sub-phase writing paused into the entry does not stop the
following sub-phase from running. -/
theorem paused_returns_immediately_and_substages_never_aborted_witness :
    (⟨3, 1, true, "t", []⟩ : FixedFramestepStage).run ⟨none⟩ =
      (⟨3, 1, true, "t", []⟩, ⟨none⟩, 0) ∧
    (runStagesLoop "t" ⟨3, 0, false⟩
      [fun _ => ⟨some ⟨[("t", ⟨3, 0, true⟩)], some "t"⟩⟩,
       fun _ => ⟨some ⟨[("t", ⟨9, 9, true⟩)], none⟩⟩] ⟨none⟩).2 =
      ⟨some ⟨[("t", ⟨9, 9, true⟩)], none⟩⟩ := by
  have h := paused_returns_immediately_and_substages_never_aborted
  refine ⟨?_, ?_⟩
  · exact h.1 ⟨3, 1, true, "t", []⟩ ⟨none⟩ rfl
  · rw [h.2 "t" ⟨3, 0, false⟩ _ ⟨none⟩]
    rfl

/-- Claim C8: get_single and get_single_mut return the sole channel state
exactly when the registry holds exactly one entry, and return none when it
holds zero entries or at least two. -/
theorem get_single_iff_exactly_one_entry (fs : FixedFramesteps) :
    (∀ (nm : String) (info : FixedFramestepInfo), fs.info = [(nm, info)] →
      fs.get_single = some info ∧ fs.get_single_mut = some info) ∧
    (fs.info.length ≠ 1 →
      fs.get_single = none ∧ fs.get_single_mut = none) := by
  constructor
  · intro nm info h
    simp [FixedFramesteps.get_single, FixedFramesteps.get_single_mut, h]
  · intro h
    simp [FixedFramesteps.get_single, FixedFramesteps.get_single_mut, h]

/-- Witness for C8: some on a singleton registry, none on an empty and on
a two-entry registry. -/
theorem get_single_iff_exactly_one_entry_witness :
    (⟨[("a", ⟨3, 0, false⟩)], none⟩ : FixedFramesteps).get_single = some ⟨3, 0, false⟩ ∧
    (⟨[], none⟩ : FixedFramesteps).get_single = none ∧
    (⟨[("a", ⟨3, 0, false⟩), ("b", ⟨4, 0, false⟩)], none⟩ :
        FixedFramesteps).get_single = none := by
  refine ⟨?_, ?_, ?_⟩
  · exact ((get_single_iff_exactly_one_entry _).1 "a" ⟨3, 0, false⟩ rfl).1
  · exact ((get_single_iff_exactly_one_entry ⟨[], none⟩).2 (by simp)).1
  · exact ((get_single_iff_exactly_one_entry _).2 (by simp)).1

/-- Claim C9: overstep computes accumulator - step in unsigned arithmetic,
so it is well defined (no underflow) exactly under accumulator ≥ step,
where it returns accumulator - step; for accumulator < step the unsigned
subtraction underflows and is undefined (modelled as none). -/
theorem overstep_defined_iff_accumulator_ge_step (i : FixedFramestepInfo) :
    (i.step ≤ i.accumulator → i.overstep = some (i.accumulator - i.step)) ∧
    (i.accumulator < i.step → i.overstep = none) := by
  unfold FixedFramestepInfo.overstep
  constructor
  · intro h
    rw [if_neg (by omega)]
  · intro h
    rw [if_pos h]

/-- Witness for C9: overstep of (step 3, accumulator 8) is 5; overstep of
(step 3, accumulator 1) underflows. -/
theorem overstep_defined_iff_accumulator_ge_step_witness :
    (⟨3, 8, false⟩ : FixedFramestepInfo).overstep = some 5 ∧
    (⟨3, 1, false⟩ : FixedFramestepInfo).overstep = none := by
  refine ⟨?_, ?_⟩
  · have h := (overstep_defined_iff_accumulator_ge_step ⟨3, 8, false⟩).1 (by decide)
    simpa using h
  · exact (overstep_defined_iff_accumulator_ge_step ⟨3, 1, false⟩).2 (by decide)

/-- Claim C10: whenever run fires, the accumulator at the moment of the
pre-sub-phase publish is exactly 0 (firing needs the incremented
accumulator to equal the step and the reset subtracts the whole step), so
the published registry entry the first sub-phase observes carries
accumulator 0, and the invocation counts exactly one fire. -/
theorem fire_publishes_zero_accumulator (s : FixedFramestepStage) (w : World)
    (hp : (s.pull w).paused = false)
    (hf : u32Mod ((s.pull w).accumulator + 1) = (s.pull w).step) :
    (FixedFramestepStage.store_fixedframestepinfo
        { s.pull w with
          accumulator := u32Mod ((s.pull w).accumulator + 1) - (s.pull w).step }
        w).getInfo s.label =
      some ⟨(s.pull w).step, 0, false⟩ ∧
    (s.run w).2.2 = 1 := by
  constructor
  · have h := store_getInfo
      { s.pull w with
        accumulator := u32Mod ((s.pull w).accumulator + 1) - (s.pull w).step } w
    simp only [hf, Nat.sub_self, pull_label] at h ⊢
    rw [h, hp]
  · rw [run_eq_fire s w hp hf]

/-- Witness for C10: step 4, accumulator 3 fires on the next invocation
and the published entry carries accumulator 0. -/
theorem fire_publishes_zero_accumulator_witness :
    (FixedFramestepStage.store_fixedframestepinfo ⟨4, 0, false, "t", []⟩ ⟨none⟩).getInfo "t" =
      some ⟨4, 0, false⟩ ∧
    ((⟨4, 3, false, "t", []⟩ : FixedFramestepStage).run ⟨none⟩).2.2 = 1 := by
  exact fire_publishes_zero_accumulator ⟨4, 3, false, "t", []⟩ ⟨none⟩ rfl rfl
